import Mathlib

/-!
Verification development for the git-dumper tool (src/git-dumper.py).

The Python source is shallowly embedded below:
* the generic worker pool `process_tasks` (lines 122-168) becomes a
  deterministic worklist loop over an explicit `PoolState` (a sequential
  schedule of the pool; all claims about it concern the *set* of executed
  tasks, the executed multiplicity, and termination, none of which depend
  on the interleaving of the worker processes);
* the follow-up behaviour of each worker's `do_task` becomes a pure
  function of the inputs the Python code inspects (whether the target file
  exists on disk, the HTTP status/bodies returned per attempt, the parsed
  object, ...), returning the counts of observable effects (HTTP requests
  issued, session re-initialisations, seconds slept, whether the file was
  written) together with the returned follow-up task list;
* `sys.exit` paths are modelled by `Option`/`none`.
-/

namespace GitDumper

variable {α : Type} [DecidableEq α]

/-- State of the sequential worklist model of `process_tasks`:
`queue` is the multiset of tasks put on `pending_tasks` and not yet taken,
`seen` is the `tasks_seen` set, `executed` is the trace of tasks handed to
`do_task`, in order. -/
structure PoolState (α : Type) where
  queue : List α
  seen : Finset α
  executed : List α
deriving DecidableEq

/-- The enqueue loops of `process_tasks` (lines 134-140 for the seeds and
lines 154-160 for follow-ups): walk the candidate list; a task already in
`tasks_seen` is skipped, otherwise it is enqueued and inserted into
`tasks_seen`.  Returns the final seen set and the newly enqueued tasks in
order. -/
def enqueueNew : Finset α → List α → Finset α × List α
  | seen, [] => (seen, [])
  | seen, t :: ts =>
    if t ∈ seen then enqueueNew seen ts
    else ((enqueueNew (insert t seen) ts).1, t :: (enqueueNew (insert t seen) ts).2)

/-- The collection loop of `process_tasks` (lines 150-160): while tasks are
outstanding, take one task, run `do_task` (the follow-up function `f`), and
enqueue each follow-up not yet seen.  `fuel` bounds the number of
iterations; `none` means the bound was hit.  The dequeued task is appended
to the `executed` trace. -/
def poolRun (f : α → List α) : Nat → PoolState α → Option (PoolState α)
  | _, ⟨[], seen, ex⟩ => some ⟨[], seen, ex⟩
  | 0, ⟨_ :: _, _, _⟩ => none
  | fuel + 1, ⟨t :: rest, seen, ex⟩ =>
    poolRun f fuel
      ⟨rest ++ (enqueueNew seen (f t)).2, (enqueueNew seen (f t)).1, ex ++ [t]⟩

/-- `process_tasks(initial_tasks, worker, jobs, args, tasks_done)`
(lines 122-168).  An empty `initial_tasks` list returns immediately
(line 125-126) before any worker process is spawned.  Otherwise `tasks_seen`
starts as the `tasks_done` argument (line 128), the seeds are enqueued with
deduplication, `jobs` workers are spawned, and the collection loop runs to
quiescence.  Result: `(number of workers spawned, executed task trace)`;
`none` models a run that needs more than `fuel` loop iterations. -/
def process_tasks (fuel : Nat) (f : α → List α) (jobs : Nat)
    (initial_tasks : List α) (tasks_done : Finset α) : Option (Nat × List α) :=
  if initial_tasks.isEmpty then some (0, [])
  else
    (poolRun f fuel
        ⟨(enqueueNew tasks_done initial_tasks).2,
         (enqueueNew tasks_done initial_tasks).1, []⟩).map
      fun s => (jobs, s.executed)

/-- Plain reachability: the least set containing the seeds and closed under
the follow-up function.  This is the "reachable closure of the seed set"
in the specification's words. -/
inductive Reach (f : α → List α) (seeds : List α) : α → Prop
  | seed : ∀ x, x ∈ seeds → Reach f seeds x
  | step : ∀ x y, Reach f seeds x → y ∈ f x → Reach f seeds y

/-- Reachability avoiding the pre-done set: seeds outside `pre`, closed
under follow-ups that are outside `pre`.  Pre-done tasks are neither
executed nor expanded, so this is the set of tasks the pool actually
runs. -/
inductive ReachAvoid (f : α → List α) (seeds : List α) (pre : Finset α) : α → Prop
  | seed : ∀ x, x ∈ seeds → x ∉ pre → ReachAvoid f seeds pre x
  | step : ∀ x y, ReachAvoid f seeds pre x → y ∈ f x → y ∉ pre → ReachAvoid f seeds pre y

/-- A tiny concrete follow-up function used to instantiate the generic pool
theorems: task 0 emits task 1, everything else emits nothing. -/
def wFollow : Nat → List Nat := fun n => if n = 0 then [1] else []

/-- A tree entry as produced by the object decoder's `iteritems()` (the
code reads `item.sha`). -/
structure TreeEntry where
  path : String
  mode : Nat
  sha : String
deriving DecidableEq

/-- A parsed version-control object, as dispatched on by the `isinstance`
chain of `get_referenced_sha1` (lines 67-85): commit
(`obj_file.tree`, `obj_file.parents`), tree (`iteritems()`), blob, or any
other `ShaFile` subclass - of which `Tag` is the one the specification
mentions. -/
inductive ShaFile
  | commit (tree : String) (parents : List String)
  | tree (entries : List TreeEntry)
  | blob (data : List Nat)
  | tag (objectSha : String)
deriving DecidableEq

/-- `get_referenced_sha1(obj_file)` (lines 67-85): commit yields its tree
then its parents; tree yields each entry's sha; blob yields nothing; any
other object kind prints an error and calls `sys.exit(1)`, modelled as
`none`. -/
def get_referenced_sha1 : ShaFile → Option (List String)
  | .commit tree parents => some (tree :: parents)
  | .tree entries => some (entries.map TreeEntry.sha)
  | .blob _ => some []
  | .tag _ => none

/-- Python's `str.startswith`, over the character lists of the strings
(structurally recursive, unlike the byte-position based core function). -/
def strStartsWith (s p : String) : Bool := p.data.isPrefixOf s.data

/-- Python's `str.endswith`, over the character lists of the strings. -/
def strEndsWith (s p : String) : Bool := p.data.reverse.isPrefixOf s.data.reverse

/-- The `(scheme, netloc, path)` components of `urllib.parse.urlparse` of an
anchor's `href`, the only three components `get_indexed_files` inspects. -/
structure UrlParts where
  scheme : String
  netloc : String
  path : String
deriving DecidableEq

/-- `get_indexed_files(response)` (lines 36-52): given the parsed `href`
URLs of all anchors of the directory-index page, keep those whose path is
non-empty (Python truthiness of `url.path`), is neither `.` nor `..`, does
not start with `/`, and whose scheme and netloc are empty, and return their
paths. -/
def get_indexed_files (links : List UrlParts) : List String :=
  (links.filter (fun u =>
    (u.path != "") && (u.path != ".") && (u.path != "..") &&
    (!(strStartsWith u.path "/")) && (u.scheme == "") && (u.netloc == ""))).map
    UrlParts.path

/-- Observable outcome of one `do_task` call: number of `session.get`
requests issued, number of session re-initialisations, total seconds slept,
whether the target file was written, and the returned follow-up list. -/
structure TaskResult where
  requests : Nat
  reinits : Nat
  sleepSeconds : Nat
  wrote : Bool
  followups : List String
deriving DecidableEq

/-- The retry loop of `DownloadWorker.do_task` (lines 186-213):
`count` starts at 0; while `count < 5`, increment it and GET the file
(`status n` is the HTTP status of the n-th attempt).  On 403, re-init the
session, sleep 10 seconds and retry; on any other non-200 status, return no
follow-ups; on 200, write the file and return no follow-ups; if the loop
exhausts its 5 iterations, return no follow-ups.  `rem` is the number of
loop iterations left, i.e. `5 - count`. -/
def dlLoopAux (status : Nat → Nat) : Nat → Nat → TaskResult
  | _, 0 => ⟨0, 0, 0, false, []⟩
  | count, rem + 1 =>
    if status (count + 1) = 403 then
      let r := dlLoopAux status (count + 1) rem
      ⟨r.requests + 1, r.reinits + 1, r.sleepSeconds + 10, r.wrote, r.followups⟩
    else if status (count + 1) ≠ 200 then ⟨1, 0, 0, false, []⟩
    else ⟨1, 0, 0, true, []⟩

/-- `DownloadWorker.do_task(filepath, ...)` (lines 179-213): if the file
already exists on disk, log and return `[]` without any request; otherwise
run the retry loop. -/
def DownloadWorker.do_task (fileExists : Bool) (status : Nat → Nat) : TaskResult :=
  if fileExists then ⟨0, 0, 0, false, []⟩
  else dlLoopAux status 0 5

/-- The parts of an HTTP response that `RecursiveDownloadWorker.do_task`
inspects: status, optional `Location` header, the `is_html` heuristic, and
the parsed anchor URLs of the body. -/
structure RecResponse where
  status : Nat
  location : Option String
  isHtml : Bool
  listing : List UrlParts

/-- The `'Location' in response.headers and
response.headers['Location'].endswith(filepath + '/')` test (lines 237-238). -/
def locEndsWith : Option String → String → Bool
  | none, _ => false
  | some loc, s => strEndsWith loc s

/-- The retry loop of `RecursiveDownloadWorker.do_task` (lines 227-264):
on 301/302 whose `Location` ends with `filepath + '/'`, re-queue the
directory task; on 403, re-init/sleep/retry; on other non-200, no
follow-ups; on 200 for a directory path, assert the body is HTML (`none`
models the assertion failure) and emit one follow-up per indexed file; on
200 for a file path, write it. -/
def recLoop (filepath : String) (resp : Nat → RecResponse) : Nat → Nat → Option TaskResult
  | _, 0 => some ⟨0, 0, 0, false, []⟩
  | count, rem + 1 =>
    if (((resp (count + 1)).status = 301 ∨ (resp (count + 1)).status = 302) ∧
        locEndsWith (resp (count + 1)).location (filepath ++ "/")) then
      some ⟨1, 0, 0, false, [filepath ++ "/"]⟩
    else if (resp (count + 1)).status = 403 then
      (recLoop filepath resp (count + 1) rem).map
        (fun t => ⟨t.requests + 1, t.reinits + 1, t.sleepSeconds + 10, t.wrote, t.followups⟩)
    else if (resp (count + 1)).status ≠ 200 then some ⟨1, 0, 0, false, []⟩
    else if strEndsWith filepath "/" then
      if (resp (count + 1)).isHtml then
        some ⟨1, 0, 0, false,
          (get_indexed_files (resp (count + 1)).listing).map (fun name => filepath ++ name)⟩
      else none
    else some ⟨1, 0, 0, true, []⟩

/-- `RecursiveDownloadWorker.do_task(filepath, ...)` (lines 219-264): the
pre-existing-file short-circuit applies only when the path does not end
with `/` (line 223); otherwise the retry loop runs. -/
def RecursiveDownloadWorker.do_task (filepath : String) (fileExists : Bool)
    (resp : Nat → RecResponse) : Option TaskResult :=
  if ¬ strEndsWith filepath "/" ∧ fileExists then some ⟨0, 0, 0, false, []⟩
  else recLoop filepath resp 0 5

/-- The retry loop shared by `FindRefsWorker.do_task` (lines 278-292) and
`FindObjectsWorker.do_task` (lines 326-340): while `count < 5`, GET; on
403, re-init the session, sleep 10 seconds and loop; on any other status,
break.  Returns `(requests, reinits, sleepSeconds, index of the attempt
whose response is left in scope)`. -/
def fetchLoop (status : Nat → Nat) : Nat → Nat → Nat × Nat × Nat × Nat
  | count, 0 => (0, 0, 0, count)
  | count, rem + 1 =>
    if status (count + 1) = 403 then
      let r := fetchLoop status (count + 1) rem
      (r.1 + 1, r.2.1 + 1, r.2.2.1 + 10, r.2.2.2)
    else (1, 0, 0, count + 1)

/-- Character class `[a-zA-Z0-9\-\.\_\*]` of the refs regular expression
(line 307). -/
def isRefChar (c : Char) : Bool :=
  c.isAlphanum || c == '-' || c == '.' || c == '_' || c == '*'

/-- Consume the maximal run of ref-class characters (the greedy `[...]+`). -/
def takeRefChars : List Char → List Char × List Char
  | [] => ([], [])
  | c :: cs =>
    if isRefChar c then ((c :: (takeRefChars cs).1), (takeRefChars cs).2)
    else ([], c :: cs)

/-- Greedy match of `(/[a-zA-Z0-9\-\.\_\*]+)+` at the head of the list:
`some (consumed, rest)` on success.  The fuel argument only bounds the
recursion; every successful group consumes at least two characters while
the fuel drops by one, so `matchSegs` below always supplies enough. -/
def matchSegsAux : Nat → List Char → Option (List Char × List Char)
  | 0, _ => none
  | n + 1, l =>
    match l with
    | '/' :: cs =>
      match takeRefChars cs with
      | ([], _) => none
      | (c1 :: seg, rest) =>
        match matchSegsAux n rest with
        | some (more, rest2) => some ((('/' :: c1 :: seg) ++ more), rest2)
        | none => some (('/' :: c1 :: seg), rest)
    | _ => none

def matchSegs (l : List Char) : Option (List Char × List Char) :=
  matchSegsAux l.length l

/-- Left-to-right non-overlapping scan of
`re.findall(r'(refs(/[a-zA-Z0-9\-\.\_\*]+)+)', text)` (line 307): at each
position, if the literal `refs` followed by at least one `/segment` group
matches, record the full match (`ref[0]`) and continue after it; otherwise
advance one character.  The fuel drops by one per step while the scanned
list shrinks by at least one character, so `findAllRefs` below always
supplies enough. -/
def findAllRefsAux : Nat → List Char → List String
  | 0, _ => []
  | _ + 1, [] => []
  | n + 1, c :: cs =>
    if (c :: cs).take 4 = ['r', 'e', 'f', 's'] then
      match matchSegs ((c :: cs).drop 4) with
      | some (m, rest) =>
        String.mk ('r' :: 'e' :: 'f' :: 's' :: m) :: findAllRefsAux n rest
      | none => findAllRefsAux n cs
    else findAllRefsAux n cs

def findAllRefs (text : String) : List String :=
  findAllRefsAux text.data.length text.data

/-- The follow-up assembly of `FindRefsWorker.do_task` (lines 305-313):
for each regex match not ending in `*`, append `.git/<ref>` and
`.git/logs/<ref>` to the task list. -/
def findRefsTasks (text : String) : List String :=
  (findAllRefs text).foldl
    (fun tasks ref =>
      if strEndsWith ref "*" then tasks
      else tasks ++ [".git/" ++ ref, ".git/logs/" ++ ref]) []

/-- `FindRefsWorker.do_task(filepath, ...)` (lines 270-313): if the file is
already on disk, read it from disk (no request) and scan it; otherwise run
the fetch loop, give up on a final non-200 status, else write the response
text and scan it.  `body n` is the text of the n-th attempt's response. -/
def FindRefsWorker.do_task (fileExists : Bool) (diskContent : String)
    (status : Nat → Nat) (body : Nat → String) : TaskResult :=
  if fileExists then ⟨0, 0, 0, false, findRefsTasks diskContent⟩
  else
    let r := fetchLoop status 0 5
    if status r.2.2.2 ≠ 200 then ⟨r.1, r.2.1, r.2.2.1, false, []⟩
    else ⟨r.1, r.2.1, r.2.2.1, true, findRefsTasks (body r.2.2.2)⟩

/-- `FindObjectsWorker.do_task(obj, ...)` (lines 319-353): if the loose
object file is already on disk, skip the fetch; otherwise run the fetch
loop, give up on a final non-200 status, else write the body.  In either
successful case the on-disk object (`parsedObj`) is decoded and
`get_referenced_sha1` provides the follow-ups (`none` models its
`sys.exit`). -/
def FindObjectsWorker.do_task (fileExists : Bool) (status : Nat → Nat)
    (parsedObj : ShaFile) : Option TaskResult :=
  if fileExists then
    (get_referenced_sha1 parsedObj).map (fun rs => ⟨0, 0, 0, false, rs⟩)
  else
    let r := fetchLoop status 0 5
    if status r.2.2.2 ≠ 200 then some ⟨r.1, r.2.1, r.2.2.1, false, []⟩
    else (get_referenced_sha1 parsedObj).map (fun rs => ⟨r.1, r.2.1, r.2.2.1, true, rs⟩)

/-- Concrete status schedule for witnesses: 403 on every attempt except the
fifth, which returns 200. -/
def wStatus : Nat → Nat := fun i => if i = 5 then 200 else 403

/-- Concrete anchor list for witnesses: one good relative link, one with a
scheme and host, one absolute, one parent link. -/
def wLinks : List UrlParts :=
  [⟨"", "", "objects/"⟩, ⟨"http", "example.com", "x"⟩, ⟨"", "", "/abs"⟩, ⟨"", "", ".."⟩]

/-- The final response of the `url_get('%s/.git/HEAD' % url)` probe: status
and body text. -/
structure HttpResponse where
  status : Nat
  text : String
deriving DecidableEq

/-- The probe check of `fetch_git` (lines 389-397): a non-200 status or a
body not starting with `ref:` prints an error and returns exit code 1
(`some 1`); otherwise (`none`) the function proceeds to the later phases. -/
def fetch_git_head_check (resp : HttpResponse) : Option Nat :=
  if resp.status ≠ 200 then some 1
  else if ¬ strStartsWith resp.text "ref:" then some 1
  else none

/-- Number of HTTP requests `fetch_git` issues after the HEAD probe: both
abort branches return before any further request; the proceed branch first
probes the directory listing (line 400) and then performs whatever the
phases need (`restRequests`). -/
def fetch_git_requests_after_probe (resp : HttpResponse) (restRequests : Nat) : Nat :=
  match fetch_git_head_check resp with
  | some _ => 0
  | none => 1 + restRequests

/-- Invariant of the collection loop relating a `PoolState` to the inputs
of `process_tasks`. -/
structure PoolInv (f : α → List α) (seeds : List α) (pre : Finset α)
    (s : PoolState α) : Prop where
  seen_eq : s.seen = pre ∪ s.executed.toFinset ∪ s.queue.toFinset
  nodup : (s.executed ++ s.queue).Nodup
  done_expanded : ∀ t ∈ s.executed, ∀ u ∈ f t, u ∈ s.seen
  sound : ∀ x ∈ s.executed ++ s.queue, ReachAvoid f seeds pre x
  seeds_seen : ∀ x ∈ seeds, x ∈ s.seen
  no_pre : ∀ x ∈ s.executed ++ s.queue, x ∉ pre

theorem enqueueNew_fst (seen : Finset α) (ts : List α) :
    (enqueueNew seen ts).1 = seen ∪ ts.toFinset := by
  induction ts generalizing seen with
  | nil => simp [enqueueNew]
  | cons t ts ih =>
    by_cases h : t ∈ seen
    · rw [show enqueueNew seen (t :: ts) = enqueueNew seen ts by simp [enqueueNew, h], ih]
      ext x
      simp only [Finset.mem_union, List.toFinset_cons, Finset.mem_insert]
      constructor
      · rintro (hx | hx)
        · exact Or.inl hx
        · exact Or.inr (Or.inr hx)
      · rintro (hx | hx | hx)
        · exact Or.inl hx
        · exact Or.inl (hx ▸ h)
        · exact Or.inr hx
    · rw [show (enqueueNew seen (t :: ts)).1 = (enqueueNew (insert t seen) ts).1 by
        simp [enqueueNew, h], ih]
      ext x
      simp only [Finset.mem_union, Finset.mem_insert, List.toFinset_cons]
      tauto

theorem enqueueNew_mem (seen : Finset α) (ts : List α) (x : α) :
    x ∈ (enqueueNew seen ts).2 ↔ x ∈ ts ∧ x ∉ seen := by
  induction ts generalizing seen with
  | nil => simp [enqueueNew]
  | cons t ts ih =>
    by_cases h : t ∈ seen
    · rw [show (enqueueNew seen (t :: ts)).2 = (enqueueNew seen ts).2 by simp [enqueueNew, h],
        ih]
      constructor
      · rintro ⟨hx, hxs⟩
        exact ⟨List.mem_cons_of_mem _ hx, hxs⟩
      · rintro ⟨hx, hxs⟩
        rcases List.mem_cons.mp hx with hx | hx
        · exact absurd (hx ▸ h) hxs
        · exact ⟨hx, hxs⟩
    · rw [show (enqueueNew seen (t :: ts)).2 = t :: (enqueueNew (insert t seen) ts).2 by
        simp [enqueueNew, h]]
      simp only [List.mem_cons, ih, Finset.mem_insert]
      constructor
      · rintro (rfl | ⟨hx, hxs⟩)
        · exact ⟨Or.inl rfl, h⟩
        · exact ⟨Or.inr hx, fun hmem => hxs (Or.inr hmem)⟩
      · rintro ⟨rfl | hx, hxs⟩
        · exact Or.inl rfl
        · by_cases hxt : x = t
          · exact Or.inl hxt
          · exact Or.inr ⟨hx, fun hmem => (hmem.elim hxt hxs)⟩

theorem enqueueNew_nodup (seen : Finset α) (ts : List α) :
    (enqueueNew seen ts).2.Nodup := by
  induction ts generalizing seen with
  | nil => simp [enqueueNew]
  | cons t ts ih =>
    by_cases h : t ∈ seen
    · rw [show (enqueueNew seen (t :: ts)).2 = (enqueueNew seen ts).2 by simp [enqueueNew, h]]
      exact ih seen
    · rw [show (enqueueNew seen (t :: ts)).2 = t :: (enqueueNew (insert t seen) ts).2 by
        simp [enqueueNew, h]]
      refine List.nodup_cons.mpr ⟨fun hmem => ?_, ih _⟩
      exact ((enqueueNew_mem _ _ _).mp hmem).2 (Finset.mem_insert_self _ _)

theorem enqueueNew_toFinset (seen : Finset α) (ts : List α) :
    (enqueueNew seen ts).2.toFinset = ts.toFinset \ seen := by
  ext x
  simp [enqueueNew_mem]

theorem enqueueNew_length (seen : Finset α) (ts : List α) :
    (enqueueNew seen ts).2.length = (ts.toFinset \ seen).card := by
  rw [← enqueueNew_toFinset, List.toFinset_card_of_nodup (enqueueNew_nodup seen ts)]

theorem poolInv_start (f : α → List α) (seeds : List α) (pre : Finset α) :
    PoolInv f seeds pre
      ⟨(enqueueNew pre seeds).2, (enqueueNew pre seeds).1, []⟩ := by
  refine ⟨?_, ?_, ?_, ?_, ?_, ?_⟩
  · rw [enqueueNew_fst]
    ext x
    simp only [Finset.mem_union, List.toFinset_nil, Finset.not_mem_empty, false_or,
      enqueueNew_toFinset, Finset.mem_sdiff, List.mem_toFinset]
    tauto
  · simpa using enqueueNew_nodup pre seeds
  · intro t ht
    simp at ht
  · intro x hx
    simp only [List.nil_append] at hx
    rcases (enqueueNew_mem pre seeds x).mp hx with ⟨hxs, hxp⟩
    exact ReachAvoid.seed x hxs hxp
  · intro x hx
    rw [enqueueNew_fst]
    exact Finset.mem_union_right _ (List.mem_toFinset.mpr hx)
  · intro x hx
    simp only [List.nil_append] at hx
    exact ((enqueueNew_mem pre seeds x).mp hx).2

theorem poolInv_step (f : α → List α) (seeds : List α) (pre : Finset α)
    (t : α) (rest : List α) (seen : Finset α) (ex : List α)
    (hInv : PoolInv f seeds pre ⟨t :: rest, seen, ex⟩) :
    PoolInv f seeds pre
      ⟨rest ++ (enqueueNew seen (f t)).2, (enqueueNew seen (f t)).1, ex ++ [t]⟩ := by
  have hseen0 : seen = pre ∪ ex.toFinset ∪ (t :: rest).toFinset := hInv.seen_eq
  have hpre_sub : pre ⊆ seen := by
    rw [hseen0]
    exact fun x hx => Finset.mem_union_left _ (Finset.mem_union_left _ hx)
  have hold_sub : ∀ x, x ∈ ex ++ t :: rest → x ∈ seen := by
    intro x hx
    rw [hseen0]
    rcases List.mem_append.mp hx with hx | hx
    · exact Finset.mem_union_left _ (Finset.mem_union_right _ (List.mem_toFinset.mpr hx))
    · exact Finset.mem_union_right _ (List.mem_toFinset.mpr hx)
  have hnew_mem : ∀ x, x ∈ (enqueueNew seen (f t)).2 → x ∈ f t ∧ x ∉ seen :=
    fun x hx => (enqueueNew_mem seen (f t) x).mp hx
  refine ⟨?_, ?_, ?_, ?_, ?_, ?_⟩
  · show (enqueueNew seen (f t)).1
      = pre ∪ (ex ++ [t]).toFinset ∪ (rest ++ (enqueueNew seen (f t)).2).toFinset
    rw [enqueueNew_fst]
    ext x
    simp only [hseen0, Finset.mem_union, List.toFinset_append, List.toFinset_cons,
      Finset.mem_insert, List.mem_toFinset, enqueueNew_toFinset, Finset.mem_sdiff,
      List.mem_cons, List.toFinset_nil, Finset.not_mem_empty, or_false]
    tauto
  · show ((ex ++ [t]) ++ (rest ++ (enqueueNew seen (f t)).2)).Nodup
    have heq : (ex ++ [t]) ++ (rest ++ (enqueueNew seen (f t)).2)
        = (ex ++ t :: rest) ++ (enqueueNew seen (f t)).2 := by
      simp
    rw [heq]
    refine List.Nodup.append hInv.nodup (enqueueNew_nodup seen (f t)) ?_
    intro x hx hx2
    exact (hnew_mem x hx2).2 (hold_sub x hx)
  · intro u hu v hv
    show v ∈ (enqueueNew seen (f t)).1
    rw [enqueueNew_fst]
    rcases List.mem_append.mp hu with hu | hu
    · exact Finset.mem_union_left _ (hInv.done_expanded u hu v hv)
    · have hut : u = t := by simpa using hu
      subst hut
      exact Finset.mem_union_right _ (List.mem_toFinset.mpr hv)
  · intro x hx
    have hreach_t : ReachAvoid f seeds pre t :=
      hInv.sound t (List.mem_append.mpr (Or.inr (List.mem_cons_self t rest)))
    rcases List.mem_append.mp hx with hx | hx
    · rcases List.mem_append.mp hx with hx | hx
      · exact hInv.sound x (List.mem_append.mpr (Or.inl hx))
      · have hxt : x = t := by simpa using hx
        subst hxt
        exact hreach_t
    · rcases List.mem_append.mp hx with hx | hx
      · exact hInv.sound x
          (List.mem_append.mpr (Or.inr (List.mem_cons_of_mem t hx)))
      · rcases hnew_mem x hx with ⟨hxf, hxs⟩
        exact ReachAvoid.step t x hreach_t hxf (fun hp => hxs (hpre_sub hp))
  · intro x hx
    show x ∈ (enqueueNew seen (f t)).1
    rw [enqueueNew_fst]
    exact Finset.mem_union_left _ (hInv.seeds_seen x hx)
  · intro x hx
    rcases List.mem_append.mp hx with hx | hx
    · rcases List.mem_append.mp hx with hx | hx
      · exact hInv.no_pre x (List.mem_append.mpr (Or.inl hx))
      · have hxt : x = t := by simpa using hx
        subst hxt
        exact hInv.no_pre x (List.mem_append.mpr (Or.inr (List.mem_cons_self x rest)))
    · rcases List.mem_append.mp hx with hx | hx
      · exact hInv.no_pre x (List.mem_append.mpr (Or.inr (List.mem_cons_of_mem t hx)))
      · rcases hnew_mem x hx with ⟨hxf, hxs⟩
        exact fun hp => hxs (hpre_sub hp)

theorem poolRun_some_inv (f : α → List α) (seeds : List α) (pre : Finset α) :
    ∀ (fuel : Nat) (s s2 : PoolState α), PoolInv f seeds pre s →
      poolRun f fuel s = some s2 → PoolInv f seeds pre s2 ∧ s2.queue = [] := by
  intro fuel
  induction fuel with
  | zero =>
    rintro ⟨q, seen, ex⟩ s2 hInv h
    cases q with
    | nil =>
      simp only [poolRun, Option.some.injEq] at h
      subst h
      exact ⟨hInv, rfl⟩
    | cons t rest => simp [poolRun] at h
  | succ fuel ih =>
    rintro ⟨q, seen, ex⟩ s2 hInv h
    cases q with
    | nil =>
      simp only [poolRun, Option.some.injEq] at h
      subst h
      exact ⟨hInv, rfl⟩
    | cons t rest =>
      simp only [poolRun] at h
      exact ih _ _ (poolInv_step f seeds pre t rest seen ex hInv) h

theorem poolRun_total (f : α → List α) (seeds : List α) (pre C : Finset α)
    (hC : ∀ x, ReachAvoid f seeds pre x → x ∈ C) :
    ∀ (fuel : Nat) (s : PoolState α), PoolInv f seeds pre s →
      s.queue.length + (C \ s.seen).card ≤ fuel →
      ∃ s2, poolRun f fuel s = some s2 := by
  intro fuel
  induction fuel with
  | zero =>
    rintro ⟨q, seen, ex⟩ hInv hm
    cases q with
    | nil => exact ⟨⟨[], seen, ex⟩, rfl⟩
    | cons t rest => simp at hm
  | succ fuel ih =>
    rintro ⟨q, seen, ex⟩ hInv hm
    cases q with
    | nil => exact ⟨⟨[], seen, ex⟩, rfl⟩
    | cons t rest =>
      have hstep := poolInv_step f seeds pre t rest seen ex hInv
      have hsub : (f t).toFinset \ seen ⊆ C \ seen := by
        intro x hx
        rcases Finset.mem_sdiff.mp hx with ⟨hxf, hxs⟩
        refine Finset.mem_sdiff.mpr ⟨hC x ?_, hxs⟩
        have hseen0 : seen = pre ∪ ex.toFinset ∪ (t :: rest).toFinset := hInv.seen_eq
        have hpre : x ∉ pre := fun hp => hxs (by
          rw [hseen0]
          exact Finset.mem_union_left _ (Finset.mem_union_left _ hp))
        exact ReachAvoid.step t x
          (hInv.sound t (List.mem_append.mpr (Or.inr (List.mem_cons_self t rest))))
          (List.mem_toFinset.mp hxf) hpre
      have hcard : ((f t).toFinset \ seen).card
          + (C \ (seen ∪ (f t).toFinset)).card = (C \ seen).card := by
        have h1 : C \ (seen ∪ (f t).toFinset) = (C \ seen) \ ((f t).toFinset \ seen) := by
          ext x
          simp only [Finset.mem_sdiff, Finset.mem_union]
          tauto
        rw [h1, Finset.card_sdiff hsub]
        have := Finset.card_le_card hsub
        omega
      rcases ih ⟨rest ++ (enqueueNew seen (f t)).2, (enqueueNew seen (f t)).1, ex ++ [t]⟩
          hstep (by
            simp only [List.length_append, enqueueNew_length, enqueueNew_fst]
            simp only [List.length_cons] at hm
            omega) with ⟨s2, hs2⟩
      exact ⟨s2, by simpa only [poolRun] using hs2⟩

theorem poolInv_complete (f : α → List α) (seeds : List α) (pre : Finset α)
    (s : PoolState α) (hInv : PoolInv f seeds pre s) (hq : s.queue = []) :
    ∀ x, ReachAvoid f seeds pre x → x ∈ s.executed := by
  intro x hx
  induction hx with
  | seed x hxs hxp =>
    have hmem := hInv.seeds_seen x hxs
    rw [hInv.seen_eq, hq] at hmem
    simp only [List.toFinset_nil, Finset.union_empty, Finset.mem_union,
      List.mem_toFinset] at hmem
    exact hmem.resolve_left hxp
  | step x y hx hyf hyp ih =>
    have hmem := hInv.done_expanded x ih y hyf
    rw [hInv.seen_eq, hq] at hmem
    simp only [List.toFinset_nil, Finset.union_empty, Finset.mem_union,
      List.mem_toFinset] at hmem
    exact hmem.resolve_left hyp

theorem process_tasks_eq_of_nonempty (f : α → List α) (fuel jobs : Nat)
    (seeds : List α) (pre : Finset α) (h : seeds.isEmpty = false) :
    process_tasks fuel f jobs seeds pre
      = (poolRun f fuel
          ⟨(enqueueNew pre seeds).2, (enqueueNew pre seeds).1, []⟩).map
          (fun s => (jobs, s.executed)) := by
  simp [process_tasks, h]

omit [DecidableEq α] in
theorem reachAvoid_nil (f : α → List α) (pre : Finset α) (x : α) :
    ¬ ReachAvoid f [] pre x := by
  intro hx
  induction hx with
  | seed x hxs hxp => exact absurd hxs (List.not_mem_nil x)
  | step x y hx hyf hyp ih => exact ih

/-- C1 (amended): for every finite seed task list, every follow-up function,
every pre-done task set, and every finite over-approximation `C` of the
tasks reachable from the seeds while avoiding the pre-done set, the
sequential schedule of `process_tasks` terminates within
`seeds.length + C.card` collection-loop iterations, and the set of tasks
it hands to `do_task` is exactly the set of tasks reachable from the seed
list by follow-up edges that never pass through a pre-done task (pre-done
tasks are neither executed nor expanded). -/
theorem process_tasks_executes_avoiding_closure (f : α → List α) (jobs : Nat)
    (seeds : List α) (pre C : Finset α)
    (hseed : ∀ x ∈ seeds, x ∉ pre → x ∈ C)
    (hstep : ∀ x ∈ C, ∀ y ∈ f x, y ∉ pre → y ∈ C)
    (fuel : Nat) (hfuel : seeds.length + C.card ≤ fuel) :
    ∃ n ex, process_tasks fuel f jobs seeds pre = some (n, ex) ∧
      ∀ x, x ∈ ex ↔ ReachAvoid f seeds pre x := by
  have hC : ∀ x, ReachAvoid f seeds pre x → x ∈ C := by
    intro x hx
    induction hx with
    | seed x hxs hxp => exact hseed x hxs hxp
    | step x y hx hyf hyp ih => exact hstep x ih y hyf hyp
  by_cases hempty : seeds.isEmpty
  · have hnil : seeds = [] := List.isEmpty_iff.mp hempty
    subst hnil
    refine ⟨0, [], by simp [process_tasks], fun x => ?_⟩
    simp only [List.not_mem_nil, false_iff]
    exact reachAvoid_nil f pre x
  · have hInv := poolInv_start f seeds pre
    have hmeasure : ((enqueueNew pre seeds).2).length
        + (C \ (enqueueNew pre seeds).1).card ≤ fuel := by
      rw [enqueueNew_length, enqueueNew_fst]
      have h1 : (seeds.toFinset \ pre).card ≤ seeds.length :=
        le_trans (Finset.card_le_card Finset.sdiff_subset) seeds.toFinset_card_le
      have h2 : (C \ (pre ∪ seeds.toFinset)).card ≤ C.card :=
        Finset.card_le_card Finset.sdiff_subset
      omega
    rcases poolRun_total f seeds pre C hC fuel
        ⟨(enqueueNew pre seeds).2, (enqueueNew pre seeds).1, []⟩ hInv hmeasure with ⟨s2, hs2⟩
    rcases poolRun_some_inv f seeds pre fuel _ s2 hInv hs2 with ⟨hInv2, hq2⟩
    refine ⟨jobs, s2.executed, ?_, fun x => ⟨?_, ?_⟩⟩
    · simp [process_tasks, hempty, hs2]
    · intro hx
      exact hInv2.sound x (List.mem_append.mpr (Or.inl hx))
    · exact poolInv_complete f seeds pre s2 hInv2 hq2 x

/-- C1 witness: a two-task instance of the amended closure theorem. -/
theorem process_tasks_executes_avoiding_closure_witness :
    ([0] : List Nat).length + ({0, 1} : Finset Nat).card ≤ 10 ∧
    ∃ n ex, process_tasks 10 wFollow 1 [0] (∅ : Finset Nat) = some (n, ex) ∧
      ∀ x, x ∈ ex ↔ ReachAvoid wFollow [0] ∅ x :=
  ⟨by decide, process_tasks_executes_avoiding_closure wFollow 1 [0] ∅ {0, 1}
    (by decide) (by decide) 10 (by decide)⟩

/-- C1 counterexample: with seed task 0, follow-up function sending 0 to 1,
and pre-done set containing 0, the pool executes nothing, yet 1 lies in the
reachable closure of the seeds minus the pre-done set.  So the executed set
is not the closure of the seeds minus the pre-done set: a pre-done seed is
skipped, hence never expanded, and its follow-ups are never discovered. -/
theorem process_tasks_closure_minus_pre_counterexample :
    process_tasks 10 wFollow 1 [0] ({0} : Finset Nat) = some (1, []) ∧
    Reach wFollow [0] 1 ∧ (1 : Nat) ∉ ({0} : Finset Nat) ∧ (1 : Nat) ∉ ([] : List Nat) := by
  refine ⟨by decide, ?_, by decide, by decide⟩
  exact Reach.step 0 1 (Reach.seed 0 (by simp)) (by simp [wFollow])

/-- C2: in any completed run of `process_tasks`, the executed task trace has
no duplicates, i.e. every task value is dequeued and handed to `do_task` at
most once; and a candidate task is enqueued by the enqueue loop iff it is
not in the seen set (being inserted into the seen set when enqueued). -/
theorem process_tasks_dequeues_each_task_once (f : α → List α) (jobs fuel : Nat)
    (seeds : List α) (pre : Finset α) (n : Nat) (ex : List α)
    (h : process_tasks fuel f jobs seeds pre = some (n, ex)) :
    ex.Nodup ∧ ∀ (seen : Finset α) (ts : List α) (x : α),
      x ∈ (enqueueNew seen ts).2 ↔ x ∈ ts ∧ x ∉ seen := by
  refine ⟨?_, fun seen ts x => enqueueNew_mem seen ts x⟩
  by_cases hempty : seeds.isEmpty
  · simp only [process_tasks, hempty, if_true, Option.some.injEq, Prod.mk.injEq] at h
    rw [← h.2]
    exact List.nodup_nil
  · rw [process_tasks_eq_of_nonempty f fuel jobs seeds pre
      (by simpa using hempty)] at h
    rcases Option.map_eq_some'.mp h with ⟨s2, hs2, hpair⟩
    have hInv := poolInv_start f seeds pre
    rcases poolRun_some_inv f seeds pre fuel _ s2 hInv hs2 with ⟨hInv2, hq2⟩
    have hnd := hInv2.nodup
    rw [hq2, List.append_nil] at hnd
    have hex : ex = s2.executed := by
      simp only [Prod.mk.injEq] at hpair
      exact hpair.2.symm
    rw [hex]
    exact hnd

/-- C2 witness: a run with a duplicated seed executes each task once. -/
theorem process_tasks_dequeues_each_task_once_witness :
    process_tasks 5 (fun _ : Nat => []) 1 [0, 1, 0] (∅ : Finset Nat) = some (1, [0, 1]) ∧
    ([0, 1] : List Nat).Nodup :=
  ⟨by decide,
    (process_tasks_dequeues_each_task_once (fun _ : Nat => []) 1 5 [0, 1, 0] ∅ 1 [0, 1]
      (by decide)).1⟩

/-- C10: invoking `process_tasks` with an empty seed task list is a no-op for
every worker kind (follow-up function), worker count and pre-done set: it
returns immediately with zero workers spawned and an empty executed trace,
so no `do_task` ever runs (hence no HTTP request is issued and the
filesystem is untouched). -/
theorem process_tasks_empty_seed_no_op (fuel : Nat) (f : α → List α) (jobs : Nat)
    (pre : Finset α) :
    process_tasks fuel f jobs [] pre = some (0, []) := rfl

/-- C3: the object-reference extractor emits exactly the tree OID followed
by every parent OID for a commit, the OID of every entry for a tree, and
the empty list for a blob. -/
theorem get_referenced_sha1_spec :
    (∀ (t : String) (ps : List String),
      get_referenced_sha1 (ShaFile.commit t ps) = some (t :: ps)) ∧
    (∀ es : List TreeEntry,
      get_referenced_sha1 (ShaFile.tree es) = some (es.map TreeEntry.sha)) ∧
    (∀ d : List Nat, get_referenced_sha1 (ShaFile.blob d) = some []) :=
  ⟨fun _ _ => rfl, fun _ => rfl, fun _ => rfl⟩

/-- C4 counterexample: a tag object does not yield its target OID; it falls
into the unknown-kind branch, which prints an error and exits the process
(modelled by `none`), contradicting the claim that tags are not treated as
a fatal unknown kind. -/
theorem get_referenced_sha1_tag_counterexample :
    get_referenced_sha1 (ShaFile.tag "deadbeef") = none := rfl

/-- C4 (amended): for every tag object given to the object-reference
extractor, the extractor treats it as an unexpected object kind: it prints
an error and exits with status 1, emitting no OIDs at all (in particular
not the tag's target OID). -/
theorem get_referenced_sha1_tag_fatal (s : String) :
    get_referenced_sha1 (ShaFile.tag s) = none := rfl

/-- C5: every path returned by the directory-listing parser is non-empty,
is neither `.` nor `..`, does not begin with `/`, and comes from an anchor
whose parsed URL has neither a scheme nor a host. -/
theorem get_indexed_files_pure (links : List UrlParts) (p : String)
    (hp : p ∈ get_indexed_files links) :
    p ≠ "" ∧ p ≠ "." ∧ p ≠ ".." ∧ strStartsWith p "/" = false ∧
    ∃ u ∈ links, u.path = p ∧ u.scheme = "" ∧ u.netloc = "" := by
  simp only [get_indexed_files, List.mem_map] at hp
  rcases hp with ⟨u, hmem, hpath⟩
  rw [List.mem_filter] at hmem
  obtain ⟨hu, hcond⟩ := hmem
  simp only [Bool.and_eq_true, bne_iff_ne, ne_eq, Bool.not_eq_true', beq_iff_eq] at hcond
  obtain ⟨⟨⟨⟨⟨h1, h2⟩, h3⟩, h4⟩, h5⟩, h6⟩ := hcond
  subst hpath
  exact ⟨h1, h2, h3, h4, u, hu, rfl, h5, h6⟩

/-- C5 witness: of four anchors, only the plain relative link survives. -/
theorem get_indexed_files_pure_witness :
    "objects/" ∈ get_indexed_files wLinks ∧
    "objects/" ≠ "" ∧ "objects/" ≠ "." ∧ "objects/" ≠ ".." ∧
    strStartsWith "objects/" "/" = false := by
  have h := get_indexed_files_pure wLinks "objects/" (by decide)
  exact ⟨by decide, h.1, h.2.1, h.2.2.1, h.2.2.2.1⟩

/-- C6: against a server answering 403 on attempts 1-4 and 200 on attempt
5, `DownloadWorker.do_task` on a not-yet-present file makes exactly 5
requests, re-initialises its session 4 times, sleeps 40 seconds in total,
writes the file, and returns the same follow-ups as a first-attempt-200
run; and against a server whose five attempts all end non-200, the task
yields no follow-ups. -/
theorem download_403_retry (status statusB : Nat → Nat)
    (h403 : ∀ i, 1 ≤ i → i ≤ 4 → status i = 403)
    (h200 : status 5 = 200)
    (hbad : ∀ i, 1 ≤ i → i ≤ 5 → statusB i ≠ 200) :
    DownloadWorker.do_task false status
      = ⟨5, 4, 40, true, (DownloadWorker.do_task false (fun _ => 200)).followups⟩ ∧
    (DownloadWorker.do_task false statusB).followups = [] := by
  constructor
  · have e1 : status 1 = 403 := h403 1 (by omega) (by omega)
    have e2 : status 2 = 403 := h403 2 (by omega) (by omega)
    have e3 : status 3 = 403 := h403 3 (by omega) (by omega)
    have e4 : status 4 = 403 := h403 4 (by omega) (by omega)
    simp [DownloadWorker.do_task, dlLoopAux, e1, e2, e3, e4, h200]
  · have key : ∀ rem count, (∀ i, count < i → i ≤ count + rem → statusB i ≠ 200) →
        (dlLoopAux statusB count rem).followups = [] := by
      intro rem
      induction rem with
      | zero => intro count h; rfl
      | succ rem ih =>
        intro count h
        by_cases h403b : statusB (count + 1) = 403
        · have hrest := ih (count + 1) (fun i hi1 hi2 => h i (by omega) (by omega))
          simp only [dlLoopAux, h403b, if_true]
          exact hrest
        · have hne : statusB (count + 1) ≠ 200 := h (count + 1) (by omega) (by omega)
          simp [dlLoopAux, h403b, hne]
    have hdo : DownloadWorker.do_task false statusB = dlLoopAux statusB 0 5 := rfl
    rw [hdo]
    exact key 5 0 (fun i hi1 hi2 => hbad i (by omega) (by omega))

/-- C6 witness: the 403-until-fifth-attempt schedule `wStatus`, and an
all-404 schedule. -/
theorem download_403_retry_witness :
    wStatus 5 = 200 ∧
    (DownloadWorker.do_task false wStatus).requests = 5 ∧
    (DownloadWorker.do_task false wStatus).sleepSeconds = 40 ∧
    (DownloadWorker.do_task false wStatus).wrote = true ∧
    (DownloadWorker.do_task false (fun _ => 404)).followups = [] := by
  have h := download_403_retry wStatus (fun _ => 404)
    (fun i h1 h2 => by unfold wStatus; rw [if_neg (by omega)])
    rfl
    (fun i h1 h2 => by simp)
  refine ⟨rfl, ?_, ?_, ?_, h.2⟩
  · rw [h.1]
  · rw [h.1]
  · rw [h.1]

/-- C7: a file already present on disk short-circuits every worker kind's
`do_task`: no HTTP request at all is issued for it (for the recursive
worker this is the case for file paths, i.e. paths not ending in `/`).
Together with the fact that the only requests outside `do_task` are the
`url_get` probes of `fetch_git` (lines 390 and 400), a second run against
the same URL and directory issues no second GET for any file already on
disk beyond those probes. -/
theorem existing_file_no_second_get
    (filepath diskContent : String) (status : Nat → Nat) (body : Nat → String)
    (resp : Nat → RecResponse) (obj : ShaFile) (r rObj : TaskResult)
    (hfp : ¬ strEndsWith filepath "/")
    (hrec : RecursiveDownloadWorker.do_task filepath true resp = some r)
    (hobj : FindObjectsWorker.do_task true status obj = some rObj) :
    (DownloadWorker.do_task true status).requests = 0 ∧
    r.requests = 0 ∧
    (FindRefsWorker.do_task true diskContent status body).requests = 0 ∧
    rObj.requests = 0 := by
  refine ⟨rfl, ?_, rfl, ?_⟩
  · have h1 : RecursiveDownloadWorker.do_task filepath true resp
        = some ⟨0, 0, 0, false, []⟩ := by
      simp [RecursiveDownloadWorker.do_task, hfp]
    rw [h1] at hrec
    injection hrec with h2
    rw [← h2]
  · have h1 : FindObjectsWorker.do_task true status obj
        = (get_referenced_sha1 obj).map (fun rs => ⟨0, 0, 0, false, rs⟩) := by
      simp [FindObjectsWorker.do_task]
    rw [h1] at hobj
    cases hg : get_referenced_sha1 obj with
    | none =>
      rw [hg] at hobj
      simp at hobj
    | some rs =>
      rw [hg] at hobj
      simp only [Option.map_some', Option.some.injEq] at hobj
      rw [← hobj]

/-- C7 witness: concrete instances of the four short-circuits. -/
theorem existing_file_no_second_get_witness :
    RecursiveDownloadWorker.do_task ".git/config" true (fun _ => ⟨404, none, false, []⟩)
      = some ⟨0, 0, 0, false, []⟩ ∧
    (DownloadWorker.do_task true (fun _ => 404)).requests = 0 ∧
    (⟨0, 0, 0, false, []⟩ : TaskResult).requests = 0 := by
  have h := existing_file_no_second_get ".git/config" "" (fun _ => 404) (fun _ => "")
    (fun _ => ⟨404, none, false, []⟩) (ShaFile.blob []) ⟨0, 0, 0, false, []⟩
    ⟨0, 0, 0, false, []⟩ (by decide) (by decide) (by decide)
  exact ⟨by decide, h.1, h.2.1⟩

/-- C8: if the `<base>/.git/HEAD` probe does not come back 200, or its body
does not begin with `ref:`, `fetch_git` aborts with exit code 1 (non-zero)
and issues no further HTTP request, whatever the later phases would have
requested. -/
theorem head_probe_failure_aborts (resp : HttpResponse) (restRequests : Nat)
    (h : resp.status ≠ 200 ∨ ¬ strStartsWith resp.text "ref:") :
    (∃ c, fetch_git_head_check resp = some c ∧ c ≠ 0) ∧
    fetch_git_requests_after_probe resp restRequests = 0 := by
  have hcheck : fetch_git_head_check resp = some 1 := by
    rcases h with h | h
    · simp [fetch_git_head_check, h]
    · by_cases hs : resp.status = 200
      · simp [fetch_git_head_check, hs, h]
      · simp [fetch_git_head_check, hs]
  exact ⟨⟨1, hcheck, by decide⟩, by simp [fetch_git_requests_after_probe, hcheck]⟩

/-- C8 witness: the scenario S6 response, a 200 whose body is
`not a ref file`. -/
theorem head_probe_failure_aborts_witness :
    (¬ strStartsWith (⟨200, "not a ref file"⟩ : HttpResponse).text "ref:") ∧
    (∃ c, fetch_git_head_check ⟨200, "not a ref file"⟩ = some c ∧ c ≠ 0) ∧
    fetch_git_requests_after_probe ⟨200, "not a ref file"⟩ 7 = 0 := by
  have h := head_probe_failure_aborts ⟨200, "not a ref file"⟩ 7 (Or.inr (by decide))
  exact ⟨by decide, h.1, h.2⟩

/-- C9: the refs worker emits, for every occurrence of the pattern
`refs(/[a-zA-Z0-9.\-_*]+)+` in the scanned text, exactly the two follow-up
paths `.git/<ref>` and `.git/logs/<ref>` when the match does not end in
`*`, and nothing when it does; the text read from disk is scanned the same
way as a fetched body.  Concrete instances: the S4 reflog line, and a
packed-refs glob. -/
theorem findRefs_emits_two_paths_per_match :
    (∀ text : String, findRefsTasks text
        = (findAllRefs text).foldr
            (fun ref acc =>
              if strEndsWith ref "*" then acc
              else (".git/" ++ ref) :: (".git/logs/" ++ ref) :: acc) []) ∧
    (∀ (text : String) (status : Nat → Nat) (body : Nat → String),
      (FindRefsWorker.do_task true text status body).followups = findRefsTasks text) ∧
    findRefsTasks "0123abc refs/heads/feature/x\n"
      = [".git/refs/heads/feature/x", ".git/logs/refs/heads/feature/x"] ∧
    findRefsTasks "refs/heads/*" = [] := by
  have key : ∀ (l acc : List String),
      l.foldl (fun tasks ref => if strEndsWith ref "*" then tasks
        else tasks ++ [".git/" ++ ref, ".git/logs/" ++ ref]) acc
      = acc ++ l.foldr (fun ref a => if strEndsWith ref "*" then a
        else (".git/" ++ ref) :: (".git/logs/" ++ ref) :: a) [] := by
    intro l
    induction l with
    | nil => intro acc; simp
    | cons ref l ih =>
      intro acc
      by_cases h : strEndsWith ref "*"
      · simp [h, ih]
      · simp [h, ih]
  refine ⟨fun text => ?_, fun text status body => rfl, by decide, by decide⟩
  rw [show findRefsTasks text
      = (findAllRefs text).foldl (fun tasks ref => if strEndsWith ref "*" then tasks
          else tasks ++ [".git/" ++ ref, ".git/logs/" ++ ref]) [] from rfl, key]
  simp

end GitDumper
